import Mathlib

/-!
Shallow embedding of the remi gemini client's core logic
(src/response.rs, src/gemtext.rs, src/main.rs) and proofs about it.

Strings are modelled as `List Char` (Rust `String`/`&str`), byte buffers as
`List Nat` (each element < 256 where it matters).  Byte offsets into strings
are modelled faithfully via UTF-8 byte lengths of characters; Rust's panicking
byte-slice operations are modelled as `Option`-returning functions where
`none` stands for a panic.  Fallible parsing returns `Option` with `none`
standing for the error value (the Rust error types carry no useful payload).
-/

/-! ## Byte-offset utilities over `List Char` -/

/-- Number of bytes of the UTF-8 encoding of a character (Rust `char::len_utf8`). -/
def utf8Len (c : Char) : Nat :=
  if c.toNat < 0x80 then 1
  else if c.toNat < 0x800 then 2
  else if c.toNat < 0x10000 then 3
  else 4

/-- Length in bytes of the UTF-8 encoding of a string (Rust `str::len`). -/
def byteLen : List Char → Nat
  | [] => 0
  | c :: rest => utf8Len c + byteLen rest

/-- Drop `n` bytes from the front of a string; `none` when `n` is not a
character boundary or is out of bounds — the cases where Rust's `s[n..]`
panics. -/
def byteDropOpt : List Char → Nat → Option (List Char)
  | s, 0 => some s
  | [], _ + 1 => none
  | c :: rest, n + 1 =>
    if utf8Len c ≤ n + 1 then byteDropOpt rest (n + 1 - utf8Len c) else none

/-- Take the first `n` bytes of a string; `none` when `n` is not a character
boundary or is out of bounds. -/
def byteTakeOpt : Nat → List Char → Option (List Char)
  | 0, _ => some []
  | _ + 1, [] => none
  | n + 1, c :: rest =>
    if utf8Len c ≤ n + 1 then
      (byteTakeOpt (n + 1 - utf8Len c) rest).map (c :: ·)
    else none

/-- Byte slice `s[a..b]` (Rust panics modelled as `none`). -/
def byteSliceOpt (s : List Char) (a b : Nat) : Option (List Char) :=
  match byteDropOpt s a with
  | none => none
  | some t => byteTakeOpt (b - a) t

/-- Does `s` start with `pat`? (Rust `str::starts_with`.) -/
def startsWith : List Char → List Char → Bool
  | _, [] => true
  | [], _ :: _ => false
  | c :: cs, p :: ps => if c = p then startsWith cs ps else false

/-- Does `s` end with `pat`? (Rust `str::ends_with`.) -/
def endsWith (s pat : List Char) : Bool :=
  startsWith s.reverse pat.reverse

/-- Does `s` contain `pat` as a contiguous substring? (Rust `str::contains`.) -/
def containsSub (s pat : List Char) : Bool :=
  match s with
  | [] => startsWith [] pat
  | _ :: rest => startsWith s pat || containsSub rest pat

/-- Rust `char::is_whitespace`: the Unicode `White_Space` property. -/
def rustIsWhitespace (c : Char) : Bool :=
  let n := c.toNat
  n = 0x9 || n = 0xA || n = 0xB || n = 0xC || n = 0xD || n = 0x20 ||
  n = 0x85 || n = 0xA0 || n = 0x1680 || (0x2000 ≤ n && n ≤ 0x200A) ||
  n = 0x2028 || n = 0x2029 || n = 0x202F || n = 0x205F || n = 0x3000

/-- Rust `str::trim_start`. -/
def trimStart (s : List Char) : List Char :=
  s.dropWhile rustIsWhitespace

/-- Rust `str::trim_end_matches` with a character predicate: repeatedly remove
trailing characters satisfying `p`. -/
def trimEndMatches (p : Char → Bool) (s : List Char) : List Char :=
  (s.reverse.dropWhile p).reverse

/-- Split on `'\n'` (keeping empty segments, including a trailing one). -/
def splitNl : List Char → List (List Char)
  | [] => [[]]
  | c :: rest =>
    if c = '\n' then [] :: splitNl rest
    else
      match splitNl rest with
      | [] => [[c]]
      | l :: ls => (c :: l) :: ls

/-- Remove a single trailing `'\r'` if present (what Rust `str::lines` does to
each segment). -/
def stripCr (s : List Char) : List Char :=
  if s.getLast? = some '\r' then s.dropLast else s

/-- Rust `str::lines`: split on `'\n'`, drop the trailing empty segment
produced by a final terminator, and strip one trailing `'\r'` per line. -/
def rustLines (s : List Char) : List (List Char) :=
  let parts := splitNl s
  let parts2 := if parts.getLast? = some [] then parts.dropLast else parts
  parts2.map stripCr

/-! ## `src/response.rs` -/

inductive InputKind where
  | basic      -- 10
  | sensitive  -- 11
  deriving DecidableEq

inductive RedirectionKind where
  | temporary  -- 30
  | permanent  -- 31
  deriving DecidableEq

inductive TemporaryFailureKind where
  | unspecified        -- 40
  | serverUnavailable  -- 41
  | cgiError           -- 42
  | proxyError         -- 43
  | slowDown           -- 44
  deriving DecidableEq

inductive PermanentFailureKind where
  | general              -- 50
  | notFound             -- 51
  | gone                 -- 52
  | proxyRequestRefused  -- 53
  | badRequest           -- 59
  deriving DecidableEq

inductive CertificateErrorKind where
  | certificateRequired       -- 60
  | certificateNotAuthorized  -- 61
  | certificateNotValid       -- 62
  deriving DecidableEq

inductive GeminiResponse where
  | input (kind : InputKind) (prompt : List Char)
  | success (body : List Char)
  | redirection (kind : RedirectionKind) (toUrl : List Char)
  | temporaryFailure (kind : TemporaryFailureKind) (msg : List Char)
  | permanentFailure (kind : PermanentFailureKind) (msg : List Char)
  | clientCertificate (kind : CertificateErrorKind) (msg : List Char)
  deriving DecidableEq

/-- Is `b` a UTF-8 continuation byte? -/
def contB (b : Nat) : Bool := 0x80 ≤ b && b ≤ 0xBF

/-- Strict UTF-8 decoding of a byte sequence (Rust `String::from_utf8`):
`none` exactly on invalid UTF-8. -/
def utf8Decode : List Nat → Option (List Char)
  | [] => some []
  | b :: rest =>
    if b ≤ 0x7F then (utf8Decode rest).map (Char.ofNat b :: ·)
    else if 0xC2 ≤ b && b ≤ 0xDF then
      match rest with
      | c :: rest2 =>
        if contB c then
          (utf8Decode rest2).map (Char.ofNat ((b - 0xC0) * 0x40 + (c - 0x80)) :: ·)
        else none
      | [] => none
    else if b = 0xE0 then
      match rest with
      | c :: d :: rest2 =>
        if (0xA0 ≤ c && c ≤ 0xBF) && contB d then
          (utf8Decode rest2).map
            (Char.ofNat ((c - 0x80) * 0x40 + (d - 0x80)) :: ·)
        else none
      | _ => none
    else if (0xE1 ≤ b && b ≤ 0xEC) || b = 0xEE || b = 0xEF then
      match rest with
      | c :: d :: rest2 =>
        if contB c && contB d then
          (utf8Decode rest2).map
            (Char.ofNat ((b - 0xE0) * 0x1000 + (c - 0x80) * 0x40 + (d - 0x80)) :: ·)
        else none
      | _ => none
    else if b = 0xED then
      match rest with
      | c :: d :: rest2 =>
        if (0x80 ≤ c && c ≤ 0x9F) && contB d then
          (utf8Decode rest2).map
            (Char.ofNat (0xD000 + (c - 0x80) * 0x40 + (d - 0x80)) :: ·)
        else none
      | _ => none
    else if b = 0xF0 then
      match rest with
      | c :: d :: e :: rest2 =>
        if (0x90 ≤ c && c ≤ 0xBF) && contB d && contB e then
          (utf8Decode rest2).map
            (Char.ofNat ((c - 0x80) * 0x1000 + (d - 0x80) * 0x40 + (e - 0x80)) :: ·)
        else none
      | _ => none
    else if 0xF1 ≤ b && b ≤ 0xF3 then
      match rest with
      | c :: d :: e :: rest2 =>
        if contB c && contB d && contB e then
          (utf8Decode rest2).map
            (Char.ofNat ((b - 0xF0) * 0x40000 + (c - 0x80) * 0x1000 +
              (d - 0x80) * 0x40 + (e - 0x80)) :: ·)
        else none
      | _ => none
    else if b = 0xF4 then
      match rest with
      | c :: d :: e :: rest2 =>
        if (0x80 ≤ c && c ≤ 0x8F) && contB d && contB e then
          (utf8Decode rest2).map
            (Char.ofNat (0x100000 + (c - 0x80) * 0x1000 +
              (d - 0x80) * 0x40 + (e - 0x80)) :: ·)
        else none
      | _ => none
    else none

/-- Is `b` the code of an ASCII digit? -/
def isAsciiDigit (b : Nat) : Bool := 48 ≤ b && b ≤ 57

/-- Rust `str::parse::<i32>` applied to the 2-byte string `[b0, b1]`,
composed with the `from_utf8` check on those two bytes.  A 2-character
parse succeeds exactly on `digit digit`, `'+' digit` and `'-' digit`
(all of which are valid UTF-8); every other 2-byte prefix — including
invalid UTF-8, which `from_utf8` rejects — yields the same parse error,
modelled as `none`. -/
def parseCode2 (b0 b1 : Nat) : Option Int :=
  if isAsciiDigit b0 && isAsciiDigit b1 then
    some (10 * ((b0 : Int) - 48) + ((b1 : Int) - 48))
  else if b0 = 43 && isAsciiDigit b1 then some ((b1 : Int) - 48)
  else if b0 = 45 && isAsciiDigit b1 then some (-((b1 : Int) - 48))
  else none

/-- The header-scanning `while` loop of `GeminiResponse::from_bytes`
(src/response.rs lines 57-85).  `rem` is `bytes[i..]`, `crlf` and `rd`
(`response_data`, already decoded) are the loop's mutable state; the result
is `(response_data, body_start)` with `body_start = none` for the sentinel
`-1`, and `none` for an early `return err`. -/
def scanLoop (bytes : List Nat) : List Nat → Nat → Bool → List Char →
    Option (List Char × Option Nat)
  | [], _, _, rd => some (rd, none)
  | b :: rem, i, crlf, rd =>
    if b = 13 then
      match (if 3 < i then utf8Decode ((bytes.drop 3).take (i - 3)) else some rd) with
      | none => none
      | some rd2 =>
        match rem with
        | lf :: rem2 =>
          if lf = 10 then scanLoop bytes rem2 (i + 2) true rd2 else none
        | [] => none
    else if crlf then some (rd, some i)
    else scanLoop bytes rem (i + 1) crlf rd

/-- The `body_data` computation of `GeminiResponse::from_bytes`
(src/response.rs lines 87-95): empty when no body start was found, otherwise
the decoded tail of the input from the body start. -/
def bodyData (bytes : List Nat) (bodyStart : Option Nat) : Option (List Char) :=
  match bodyStart with
  | none => some []
  | some bs => utf8Decode (bytes.drop bs)

/-- The `res` classification block of `GeminiResponse::from_bytes`
(src/response.rs lines 96-161): decade of the code selects the category,
the exact code the sub-kind; codes outside 10-69 are an error. -/
def classify (code : Int) (rd body : List Char) : Option GeminiResponse :=
  if 10 ≤ code ∧ code ≤ 19 then
    some (.input (if code = 11 then .sensitive else .basic) rd)
  else if 20 ≤ code ∧ code ≤ 29 then
    some (.success body)
  else if 30 ≤ code ∧ code ≤ 39 then
    some (.redirection (if code = 31 then .permanent else .temporary) rd)
  else if 40 ≤ code ∧ code ≤ 49 then
    some (.temporaryFailure
      (if code = 41 then .serverUnavailable
       else if code = 42 then .cgiError
       else if code = 43 then .proxyError
       else if code = 44 then .slowDown
       else .unspecified) rd)
  else if 50 ≤ code ∧ code ≤ 59 then
    some (.permanentFailure
      (if code = 51 then .notFound
       else if code = 52 then .gone
       else if code = 53 then .proxyRequestRefused
       else if code = 59 then .badRequest
       else .general) rd)
  else if 60 ≤ code ∧ code ≤ 69 then
    some (.clientCertificate
      (if code = 61 then .certificateNotAuthorized
       else if code = 62 then .certificateNotValid
       else .certificateRequired) rd)
  else none

/-- `GeminiResponse::from_bytes` (src/response.rs lines 42-164). -/
def GeminiResponse.from_bytes (bytes : List Nat) : Option GeminiResponse :=
  match bytes with
  | b0 :: b1 :: _ =>
    match parseCode2 b0 b1 with
    | none => none
    | some code =>
      match scanLoop bytes (bytes.drop 3) 3 false [] with
      | none => none
      | some (rd, bodyStart) =>
        match bodyData bytes bodyStart with
        | none => none
        | some body => classify code rd body
  | _ => none

/-! ## `src/gemtext.rs` -/

inductive GemtextEntry where
  | text (s : List Char)
  | link (url : List Char) (label : List Char)
  | minorHeading (s : List Char)
  | mediumHeading (s : List Char)
  | majorHeading (s : List Char)
  | list (items : List (List Char))
  | quote (s : List Char)
  | preformatted (alt_text : List Char) (body : List Char)
  deriving DecidableEq

structure Gemtext where
  data : List GemtextEntry
  deriving DecidableEq

/-- The backtick character (the documents' 3-character fence marker is three
of these). -/
def fenceChar : Char := Char.ofNat 96

/-- The fence marker. -/
def fencePat : List Char := [fenceChar, fenceChar, fenceChar]

/-- Mutable state of the `for l in s.lines()` loop of `Gemtext::from_str`:
accumulated entries, preformatted mode flag, preformatted buffer and
preformatted alt text. -/
structure PState where
  res : List GemtextEntry
  mode : Bool
  buf : List Char
  alt : List Char
  deriving DecidableEq

def initPS : PState := ⟨[], false, [], []⟩

/-- The link-line tokenizer loop of `Gemtext::from_str`
(src/gemtext.rs lines 60-81).  Arguments after `l1` are the remaining
characters and the mutable `byte_counter`, `word_start`, `word_counter`,
`url`, `label`; the result also returns the final `word_counter` and
`word_start` (used by the fix-up after the loop).  `none` models a
byte-slice panic (never reachable: all offsets are char boundaries). -/
def linkLoop (l1 : List Char) : List Char → Nat → Nat → Nat →
    List Char → List Char → Option (List Char × List Char × Nat × Nat)
  | [], _, ws, wc, url, label => some (url, label, wc, ws)
  | c :: cs, bc, ws, wc, url, label =>
    if rustIsWhitespace c then
      if wc = 1 then
        match byteSliceOpt l1 ws bc with
        | none => none
        | some u => linkLoop l1 cs (bc + utf8Len c) (bc + utf8Len c) (wc + 1) u label
      else if 1 < wc then
        match byteDropOpt l1 ws with
        | none => none
        | some lab => some (url, lab, wc, ws)
      else linkLoop l1 cs (bc + utf8Len c) (bc + utf8Len c) (wc + 1) url label
    else linkLoop l1 cs (bc + utf8Len c) ws wc url label

/-- Link-line tokenization (src/gemtext.rs lines 59-85): the loop above plus
the after-loop fix-up `if url.is_empty() && word_counter == 1 && l1.len() >
word_start { url = l1[word_start..] }`. -/
def linkOf (l1 : List Char) : Option (List Char × List Char) :=
  match linkLoop l1 l1 0 0 0 [] [] with
  | none => none
  | some (url, label, wc, ws) =>
    if url = [] ∧ wc = 1 ∧ ws < byteLen l1 then
      match byteDropOpt l1 ws with
      | none => none
      | some u => some (u, label)
    else some (url, label)

/-- The list branch of `Gemtext::from_str` (src/gemtext.rs lines 104-122):
append to a trailing `List` entry if there is one, else push a new
singleton `List`. -/
def pushListItem (res : List GemtextEntry) (entry : List Char) : List GemtextEntry :=
  match res.getLast? with
  | some (.list vec) => res.dropLast ++ [.list (vec ++ [entry])]
  | _ => res ++ [.list [entry]]

/-- One iteration of the line loop of `Gemtext::from_str`
(src/gemtext.rs lines 41-138).  `s` is the whole input (used — that is the
source's bug — when capturing fence alt text); `none` models a panic from a
byte slice that is not on a character boundary. -/
def processLine (s : List Char) (st : PState) (l : List Char) : Option PState :=
  let l1 := trimStart l
  if st.mode then
    if startsWith l1 fencePat then
      some { st with
        mode := false
        res := st.res ++ [.preformatted st.alt st.buf]
        alt := []
        buf := [] }
    else
      some { st with
        buf := (if 0 < byteLen st.buf then st.buf ++ ['\n'] else st.buf) ++ l }
  else
    if startsWith l1 ['=', '>'] then
      match linkOf l1 with
      | none => none
      | some (url, label) => some { st with res := st.res ++ [.link url label] }
    else if startsWith l1 ['#', '#', '#', ' '] then
      if 4 < byteLen l1 then
        match byteDropOpt l1 4 with
        | none => none
        | some t => some { st with res := st.res ++ [.minorHeading t] }
      else some { st with res := st.res ++ [.minorHeading []] }
    else if startsWith l1 ['#', '#', ' '] then
      if 3 < byteLen l1 then
        match byteDropOpt l1 3 with
        | none => none
        | some t => some { st with res := st.res ++ [.mediumHeading t] }
      else some { st with res := st.res ++ [.mediumHeading []] }
    else if startsWith l1 ['#', ' '] then
      if 2 < byteLen l1 then
        match byteDropOpt l1 2 with
        | none => none
        | some t => some { st with res := st.res ++ [.majorHeading t] }
      else some { st with res := st.res ++ [.majorHeading []] }
    else if startsWith l1 ['*', ' '] then
      if 2 < byteLen l1 then
        match byteDropOpt l1 2 with
        | none => none
        | some entry => some { st with res := pushListItem st.res entry }
      else some { st with res := pushListItem st.res [] }
    else if startsWith l1 ['>'] then
      if 1 < byteLen l1 then
        match byteDropOpt l1 1 with
        | none => none
        | some t => some { st with res := st.res ++ [.quote t] }
      else some { st with res := st.res ++ [.quote []] }
    else if startsWith l1 fencePat then
      if 3 < byteLen l1 then
        match byteDropOpt s 3 with
        | none => none
        | some t => some { st with mode := true, alt := st.alt ++ t }
      else some { st with mode := true }
    else
      some { st with res := st.res ++ [.text l] }

/-- Fold `processLine` over the lines. -/
def processLines (s : List Char) (st : PState) : List (List Char) → Option PState
  | [] => some st
  | l :: ls =>
    match processLine s st l with
    | none => none
    | some st2 => processLines s st2 ls

/-- `Gemtext::from_str` (src/gemtext.rs lines 36-140).  The Rust function
always returns `Ok` when it returns; `none` models a panic. -/
def Gemtext.from_str (s : List Char) : Option Gemtext :=
  (processLines s initPS (rustLines s)).map (fun st => ⟨st.res⟩)

/-! ## `src/main.rs` -/

/-- The string `"gemini://"` (9 one-byte characters). -/
def geminiScheme : List Char := ['g', 'e', 'm', 'i', 'n', 'i', ':', '/', '/']

/-- The scheme separator `"://"`. -/
def schemeSep : List Char := [':', '/', '/']

/-- The document-extension suffix `".gmi"`. -/
def gmiSuffix : List Char := ['.', 'g', 'm', 'i']

/-- The `while server_name.contains('/') { server_name.pop(); }` loop of
`redirect` (src/main.rs lines 415-417). -/
def popUntilNoSlash (s : List Char) : List Char :=
  if s.contains '/' then popUntilNoSlash s.dropLast else s
termination_by s.length
decreasing_by
  cases s with
  | nil => simp [List.contains] at *
  | cons c cs => simp [List.length_dropLast]

/-- `redirect` (src/main.rs lines 407-442): given the current
`server_name`, `request_data` and a target `url`, returns the Rust
function's boolean result together with the (possibly mutated)
`server_name` and `request_data`.  `url[9..]` is only taken under the
`starts_with("gemini://")` guard, whose 9 matched characters are one byte
each, so the byte slice equals dropping 9 characters and cannot panic. -/
def redirect (serverName requestData url : List Char) :
    Bool × List Char × List Char :=
  if containsSub url schemeSep then
    if startsWith url geminiScheme then
      if byteLen url ≤ 9 then (false, serverName, requestData)
      else (true, popUntilNoSlash (url.drop 9), url)
    else (false, serverName, requestData)
  else if startsWith url ['/'] then
    (true, serverName, geminiScheme ++ serverName ++ url)
  else if endsWith url gmiSuffix then
    (true, serverName,
      (if endsWith requestData gmiSuffix then
        trimEndMatches (fun c => c != '/') requestData
       else requestData) ++ url)
  else
    (true, serverName,
      (if endsWith requestData ['/'] then requestData else requestData ++ ['/'])
        ++ url)

/-- The navigation-relevant fields of `struct App` (src/main.rs lines 38-48). -/
structure AppState where
  serverName : List Char
  requestData : List Char
  urlBarData : List Char
  gemtext : Gemtext
  movingInHistory : Bool
  history : List (List Char × List Char)
  historyIndex : Nat
  redir : Bool
  deriving DecidableEq

/-- The fetch-cycle response dispatch of `App::update`
(src/main.rs lines 116-172, the `Ok(response)` arm of the `match` plus the
trailing `self.url_bar_data = self.request_data.clone()`), given the parsed
response of the request that the `self.redir` flag triggered.  `self.redir`
is cleared on entry (line 117).  `none` models a panic: the `expect` on a
body that `Gemtext::from_str` panics on, the out-of-bounds
`self.history[self.history_index]` when history is empty, the `todo!` on a
rejected permanent redirect, and the `panic!` on unsupported responses. -/
def App.handleResponse (st0 : AppState) (resp : GeminiResponse) :
    Option AppState :=
  let st := { st0 with redir := false }
  match resp with
  | .success body =>
    match Gemtext.from_str body with
    | none => none
    | some g =>
      let st2 := { st with gemtext := g }
      let st3 :=
        if ¬ st2.movingInHistory then
          let hist2 := st2.history.take (st2.historyIndex + 1) ++
            [(st2.serverName, st2.requestData)]
          { st2 with history := hist2, historyIndex := hist2.length - 1 }
        else { st2 with movingInHistory := false }
      some { st3 with urlBarData := st3.requestData }
  | .permanentFailure .notFound _ =>
    match st.history[st.historyIndex]? with
    | none => none
    | some e =>
      some { st with
        movingInHistory := false
        serverName := e.1
        requestData := e.2
        urlBarData := e.2 }
  | .redirection .permanent toUrl =>
    let r := redirect st.serverName st.requestData toUrl
    if r.1 then
      some { st with
        serverName := r.2.1
        requestData := r.2.2
        redir := true
        urlBarData := r.2.2 }
    else none
  | _ => none

/-! ## Shared helper lemmas -/

theorem utf8Len_pos (c : Char) : 0 < utf8Len c := by
  unfold utf8Len; split_ifs <;> norm_num

@[simp] theorem byteLen_nil : byteLen [] = 0 := rfl

@[simp] theorem byteLen_cons (c : Char) (s : List Char) :
    byteLen (c :: s) = utf8Len c + byteLen s := rfl

theorem byteLen_append (a b : List Char) :
    byteLen (a ++ b) = byteLen a + byteLen b := by
  induction a with
  | nil => simp
  | cons c cs ih => simp [ih]; omega

theorem byteDropOpt_append (pre t : List Char) :
    byteDropOpt (pre ++ t) (byteLen pre) = some t := by
  induction pre with
  | nil => simp [byteDropOpt]
  | cons c cs ih =>
    have hc := utf8Len_pos c
    rw [List.cons_append, byteLen_cons]
    rcases hn : utf8Len c + byteLen cs with _ | m
    · omega
    · unfold byteDropOpt
      rw [if_pos (by omega)]
      have h2 : m + 1 - utf8Len c = byteLen cs := by omega
      rw [h2]; exact ih

theorem byteTakeOpt_append (t post : List Char) :
    byteTakeOpt (byteLen t) (t ++ post) = some t := by
  induction t with
  | nil => simp [byteTakeOpt]
  | cons c cs ih =>
    have hc := utf8Len_pos c
    rw [List.cons_append, byteLen_cons]
    rcases hn : utf8Len c + byteLen cs with _ | m
    · omega
    · unfold byteTakeOpt
      rw [if_pos (by omega)]
      have h2 : m + 1 - utf8Len c = byteLen cs := by omega
      rw [h2, ih]; rfl

theorem byteSliceOpt_append (pre mid post : List Char) :
    byteSliceOpt (pre ++ (mid ++ post)) (byteLen pre) (byteLen pre + byteLen mid) =
      some mid := by
  unfold byteSliceOpt
  rw [byteDropOpt_append]
  show byteTakeOpt (byteLen pre + byteLen mid - byteLen pre) (mid ++ post) = some mid
  have h2 : byteLen pre + byteLen mid - byteLen pre = byteLen mid := by omega
  rw [h2]; exact byteTakeOpt_append mid post

theorem startsWith_iff (s pat : List Char) :
    startsWith s pat = true ↔ ∃ t, s = pat ++ t := by
  induction pat generalizing s with
  | nil => simp [startsWith]
  | cons p ps ih =>
    cases s with
    | nil => simp [startsWith]
    | cons c cs =>
      constructor
      · intro h
        unfold startsWith at h
        split_ifs at h with hc
        · obtain ⟨t, ht⟩ := (ih cs).mp h
          exact ⟨t, by simp [hc, ht]⟩
      · rintro ⟨t, ht⟩
        simp only [List.cons_append, List.cons.injEq] at ht
        obtain ⟨h1, h2⟩ := ht
        unfold startsWith
        rw [if_pos h1]
        exact (ih cs).mpr ⟨t, h2⟩

theorem dropWhile_append_of_all {p : Char → Bool} {a : List Char} (b : List Char)
    (h : ∀ x ∈ a, p x = true) :
    (a ++ b).dropWhile p = b.dropWhile p := by
  induction a with
  | nil => rfl
  | cons c cs ih =>
    simp only [List.cons_append, List.dropWhile, h c (by simp)]
    exact ih (fun x hx => h x (by simp [hx]))

theorem splitNl_of_no_nl (a : List Char) (h : ∀ c ∈ a, c ≠ '\n') :
    splitNl a = [a] := by
  induction a with
  | nil => rfl
  | cons c cs ih =>
    unfold splitNl
    rw [if_neg (by simpa using h c (by simp))]
    rw [ih (fun x hx => h x (by simp [hx]))]

theorem splitNl_append_nl (a b : List Char) (h : ∀ c ∈ a, c ≠ '\n') :
    splitNl (a ++ '\n' :: b) = a :: splitNl b := by
  induction a with
  | nil => simp [splitNl]
  | cons c cs ih =>
    have hc : ¬ (c = '\n') := by simpa using h c (by simp)
    show (if c = '\n' then [] :: splitNl (cs ++ '\n' :: b)
          else match splitNl (cs ++ '\n' :: b) with
               | [] => [[c]]
               | l :: ls => (c :: l) :: ls) = (c :: cs) :: splitNl b
    rw [if_neg hc, ih (fun x hx => h x (by simp [hx]))]

theorem stripCr_of_no_cr (s : List Char) (h : ∀ c ∈ s, c ≠ '\r') :
    stripCr s = s := by
  unfold stripCr
  split_ifs with hg
  · exact absurd rfl (h '\r' (List.mem_of_mem_getLast? hg))
  · rfl

theorem rustLines_single (s : List Char) (hne : s ≠ [])
    (h : ∀ c ∈ s, c ≠ '\n' ∧ c ≠ '\r') :
    rustLines s = [s] := by
  unfold rustLines
  rw [splitNl_of_no_nl s (fun c hc => (h c hc).1)]
  simp only [List.getLast?_singleton, Option.some.injEq]
  rw [if_neg (by simpa using hne)]
  simp [stripCr_of_no_cr s (fun c hc => (h c hc).2)]

/-! ## Claim C2 -/

theorem scanLoop_no_cr (bytes : List Nat) (rem : List Nat) (i : Nat)
    (rd : List Char) (h : ∀ b ∈ rem, b ≠ 13) :
    scanLoop bytes rem i false rd = some (rd, none) := by
  induction rem generalizing i with
  | nil => rfl
  | cons b rem2 ih =>
    unfold scanLoop
    rw [if_neg (by simpa using h b (by simp))]
    rw [if_neg (by simp)]
    exact ih (i + 1) (fun x hx => h x (by simp [hx]))

/-- C2 (corrected): header scanning starts at byte index 3, so a CR/LF pair
that immediately follows the 2-digit code is never recognized as the
terminator.  For `"20" ++ CR LF ++ rest` with no CR byte in `rest`, the scan
runs off the end without finding a terminator and the parse succeeds with an
empty meta string and an EMPTY body — the bytes after the unrecognized
terminator are dropped, not returned. -/
theorem c2_code_then_crlf (rest : List Nat) (h : ∀ b ∈ rest, b ≠ 13) :
    GeminiResponse.from_bytes (50 :: 48 :: 13 :: 10 :: rest) =
      some (.success []) := by
  have hcode : parseCode2 50 48 = some 20 := by decide
  have hdrop : List.drop 3 (50 :: 48 :: 13 :: 10 :: rest) = 10 :: rest := rfl
  have hscan : scanLoop (50 :: 48 :: 13 :: 10 :: rest) (10 :: rest) 3 false []
      = some ([], none) := by
    unfold scanLoop
    rw [if_neg (by norm_num), if_neg (by simp)]
    exact scanLoop_no_cr _ rest 4 [] h
  unfold GeminiResponse.from_bytes
  simp only [hdrop, hcode, hscan]
  show classify 20 [] [] = some (.success [])
  unfold classify
  norm_num

/-- C2 is false as stated: on the bytes of `"20\r\nBODY"` (CR/LF directly
after the code, no meta), parse succeeds but returns an empty body, not the
bytes `"BODY"` that follow the terminator. -/
theorem c2_counterexample :
    GeminiResponse.from_bytes [50, 48, 13, 10, 66, 79, 68, 89] =
        some (.success []) ∧
      GeminiResponse.from_bytes [50, 48, 13, 10, 66, 79, 68, 89] ≠
        some (.success ['B', 'O', 'D', 'Y']) := by
  constructor
  · decide
  · decide

/-- Witness instantiating `c2_code_then_crlf` at the bytes of `"20\r\nBODY"`. -/
theorem c2_code_then_crlf_witness :
    GeminiResponse.from_bytes (50 :: 48 :: 13 :: 10 :: [66, 79, 68, 89]) =
      some (.success []) :=
  c2_code_then_crlf [66, 79, 68, 89] (by decide)

/-! ## Claim C1 -/

/-- A response's category together with its sub-kind, with payloads erased. -/
inductive RespTag where
  | inputBasic | inputSensitive
  | successTag
  | redirTemporary | redirPermanent
  | tempUnspecified | tempServerUnavailable | tempCgiError | tempProxyError
  | tempSlowDown
  | permGeneral | permNotFound | permGone | permProxyRequestRefused
  | permBadRequest
  | certRequired | certNotAuthorized | certNotValid
  deriving DecidableEq

/-- Category and sub-kind of a parsed response. -/
def tagOf : GeminiResponse → RespTag
  | .input .basic _ => .inputBasic
  | .input .sensitive _ => .inputSensitive
  | .success _ => .successTag
  | .redirection .temporary _ => .redirTemporary
  | .redirection .permanent _ => .redirPermanent
  | .temporaryFailure .unspecified _ => .tempUnspecified
  | .temporaryFailure .serverUnavailable _ => .tempServerUnavailable
  | .temporaryFailure .cgiError _ => .tempCgiError
  | .temporaryFailure .proxyError _ => .tempProxyError
  | .temporaryFailure .slowDown _ => .tempSlowDown
  | .permanentFailure .general _ => .permGeneral
  | .permanentFailure .notFound _ => .permNotFound
  | .permanentFailure .gone _ => .permGone
  | .permanentFailure .proxyRequestRefused _ => .permProxyRequestRefused
  | .permanentFailure .badRequest _ => .permBadRequest
  | .clientCertificate .certificateRequired _ => .certRequired
  | .clientCertificate .certificateNotAuthorized _ => .certNotAuthorized
  | .clientCertificate .certificateNotValid _ => .certNotValid

/-- The numeric code formed by two ASCII digit bytes. -/
def digitCode (b0 b1 : Nat) : Int :=
  10 * ((b0 : Int) - 48) + ((b1 : Int) - 48)

/-- The claim's code table, written from the spec's words: tens digit 1-6
selects the category, the exact code the sub-kind, with a per-category
default; codes outside 10-69 have no entry. -/
def specTag (c : Int) : Option RespTag :=
  if 10 ≤ c ∧ c ≤ 19 then
    some (if c = 11 then .inputSensitive else .inputBasic)
  else if 20 ≤ c ∧ c ≤ 29 then some .successTag
  else if 30 ≤ c ∧ c ≤ 39 then
    some (if c = 31 then .redirPermanent else .redirTemporary)
  else if 40 ≤ c ∧ c ≤ 49 then
    some (if c = 41 then .tempServerUnavailable
          else if c = 42 then .tempCgiError
          else if c = 43 then .tempProxyError
          else if c = 44 then .tempSlowDown
          else .tempUnspecified)
  else if 50 ≤ c ∧ c ≤ 59 then
    some (if c = 51 then .permNotFound
          else if c = 52 then .permGone
          else if c = 53 then .permProxyRequestRefused
          else if c = 59 then .permBadRequest
          else .permGeneral)
  else if 60 ≤ c ∧ c ≤ 69 then
    some (if c = 61 then .certNotAuthorized
          else if c = 62 then .certNotValid
          else .certRequired)
  else none

theorem parseCode2_cases (b0 b1 : Nat) (code : Int)
    (h : parseCode2 b0 b1 = some code) :
    (isAsciiDigit b0 = true ∧ isAsciiDigit b1 = true ∧ code = digitCode b0 b1) ∨
      code ≤ 9 := by
  unfold parseCode2 at h
  split_ifs at h with h1 h2 h3
  · obtain rfl := Option.some.inj h
    obtain ⟨d0, d1⟩ := Bool.and_eq_true _ _ |>.mp h1
    exact Or.inl ⟨d0, d1, rfl⟩
  · obtain rfl := Option.some.inj h
    obtain ⟨-, d1⟩ := Bool.and_eq_true _ _ |>.mp h2
    unfold isAsciiDigit at d1
    simp only [Bool.and_eq_true, decide_eq_true_eq] at d1
    right; omega
  · obtain rfl := Option.some.inj h
    obtain ⟨-, d1⟩ := Bool.and_eq_true _ _ |>.mp h3
    unfold isAsciiDigit at d1
    simp only [Bool.and_eq_true, decide_eq_true_eq] at d1
    right; omega

set_option maxHeartbeats 1000000 in
theorem classify_some (code : Int) (rd body : List Char) (r : GeminiResponse)
    (h : classify code rd body = some r) :
    10 ≤ code ∧ code ≤ 69 ∧ specTag code = some (tagOf r) := by
  unfold classify at h
  split_ifs at h <;>
    (obtain rfl := Option.some.inj h
     refine ⟨by omega, by omega, ?_⟩
     unfold specTag
     split_ifs <;> simp [tagOf])

theorem classify_none (code : Int) (rd body : List Char)
    (h : code < 10 ∨ 69 < code) :
    classify code rd body = none := by
  unfold classify
  split_ifs with h1 h2 h3 h4 h5 h6 <;> first | rfl | omega

/-- C1 (corrected): the first half of the claim holds only for inputs on
which parse succeeds — a byte sequence whose first two bytes are ASCII
digits forming 10-69 can still fail to parse (malformed header or invalid
text encoding).  Whenever parse does succeed, the first two bytes are ASCII
digits forming a code 10-69 and the result's category and sub-kind are
exactly the claim's table (`specTag`); and every input whose first two bytes
are not ASCII digits forming a code 10-69 (including too-short inputs)
fails. -/
theorem c1_code_table :
    (∀ b0 b1 rest r, GeminiResponse.from_bytes (b0 :: b1 :: rest) = some r →
      isAsciiDigit b0 = true ∧ isAsciiDigit b1 = true ∧
      10 ≤ digitCode b0 b1 ∧ digitCode b0 b1 ≤ 69 ∧
      specTag (digitCode b0 b1) = some (tagOf r)) ∧
    (∀ b0 b1 rest, ¬ (isAsciiDigit b0 = true ∧ isAsciiDigit b1 = true ∧
        10 ≤ digitCode b0 b1 ∧ digitCode b0 b1 ≤ 69) →
      GeminiResponse.from_bytes (b0 :: b1 :: rest) = none) ∧
    (∀ bs : List Nat, bs.length < 2 → GeminiResponse.from_bytes bs = none) := by
  refine ⟨?_, ?_, ?_⟩
  · intro b0 b1 rest r h
    simp only [GeminiResponse.from_bytes] at h
    split at h
    · exact Option.noConfusion h
    · rename_i code hc
      split at h
      · exact Option.noConfusion h
      · rename_i rd bodyStart hs
        split at h
        · exact Option.noConfusion h
        · rename_i body hb
          obtain ⟨hge, hle, htag⟩ := classify_some _ _ _ _ h
          rcases parseCode2_cases b0 b1 code hc with ⟨d0, d1, rfl⟩ | hle9
          · exact ⟨d0, d1, hge, hle, htag⟩
          · omega
  · intro b0 b1 rest hno
    simp only [GeminiResponse.from_bytes]
    split
    · rfl
    · rename_i code hc
      split
      · rfl
      · rename_i rd bodyStart hs
        split
        · rfl
        · rename_i body hb
          apply classify_none
          rcases parseCode2_cases b0 b1 code hc with ⟨d0, d1, rfl⟩ | hle9
          · by_contra hcon
            push_neg at hcon
            exact hno ⟨d0, d1, by omega, by omega⟩
          · omega
  · intro bs hlen
    rcases bs with _ | ⟨b0, _ | ⟨b1, rest⟩⟩
    · rfl
    · rfl
    · exact absurd hlen (by simp)

/-- C1 is false as stated: the bytes of `"51 a\rb"` start with the ASCII
digits of code 51, yet parse fails (the CR is not followed by LF) instead of
returning a PermanentFailure/NotFound response. -/
theorem c1_counterexample :
    isAsciiDigit 53 = true ∧ isAsciiDigit 49 = true ∧
    10 ≤ digitCode 53 49 ∧ digitCode 53 49 ≤ 69 ∧
    GeminiResponse.from_bytes [53, 49, 32, 97, 13, 98] = none := by
  decide

/-- Witness instantiating `c1_code_table`: `"51\r\n"` parses to
PermanentFailure/NotFound matching the table, and `"99\r\n"` (tens digit 9)
fails. -/
theorem c1_code_table_witness :
    (isAsciiDigit 53 = true ∧ isAsciiDigit 49 = true ∧
     10 ≤ digitCode 53 49 ∧ digitCode 53 49 ≤ 69 ∧
     specTag (digitCode 53 49) =
       some (tagOf (.permanentFailure .notFound []))) ∧
    GeminiResponse.from_bytes [57, 57, 13, 10] = none :=
  ⟨c1_code_table.1 53 49 [13, 10] (.permanentFailure .notFound []) (by decide),
   c1_code_table.2.1 57 57 [13, 10] (by decide)⟩

/-! ## Claims C4 and C5 -/

/-- C4 is refuted by the code: `Gemtext::from_str` is not panic-free.  On the
input `"🙂\n```x"` the fence-open branch evaluates `s[3..]` on the WHOLE
input `s` (not the current line), and byte index 3 falls inside the 4-byte
first character, so the slice panics (modelled as `none`).  The claim says
parse is total and never fails. -/
theorem c4_panic_eval :
    Gemtext.from_str (Char.ofNat 0x1F642 :: '\n' ::
      fenceChar :: fenceChar :: fenceChar :: 'x' :: []) = none := by
  decide

/-- C5 is refuted by the code: on `"```abc\nx\n```"` the emitted block's
alt text is `s[3..]` of the whole input — `"abc\nx\n```"` — not the
trailing text `"abc"` of the opening fence line that the claim (and the
variable's own name in the source) promises. -/
theorem c5_alt_text_eval :
    Gemtext.from_str
        (fenceChar :: fenceChar :: fenceChar ::
          'a' :: 'b' :: 'c' :: '\n' :: 'x' :: '\n' ::
          fenceChar :: fenceChar :: fenceChar :: []) =
      some ⟨[.preformatted
        ('a' :: 'b' :: 'c' :: '\n' :: 'x' :: '\n' ::
          fenceChar :: fenceChar :: fenceChar :: []) ['x']]⟩ ∧
    ('a' :: 'b' :: 'c' :: '\n' :: 'x' :: '\n' ::
        fenceChar :: fenceChar :: fenceChar :: []) ≠ ['a', 'b', 'c'] := by
  constructor
  · decide
  · decide

/-! ## Claim C7 -/

theorem fence_branch_select (t : List Char) :
    startsWith (fencePat ++ t) ['=', '>'] = false ∧
    startsWith (fencePat ++ t) ['#', '#', '#', ' '] = false ∧
    startsWith (fencePat ++ t) ['#', '#', ' '] = false ∧
    startsWith (fencePat ++ t) ['#', ' '] = false ∧
    startsWith (fencePat ++ t) ['*', ' '] = false ∧
    startsWith (fencePat ++ t) ['>'] = false ∧
    startsWith (fencePat ++ t) fencePat = true := by
  refine ⟨?_, ?_, ?_, ?_, ?_, ?_, ?_⟩ <;> simp [fencePat, fenceChar, startsWith]

theorem processLine_in_mode (s l : List Char) (st : PState)
    (hm : st.mode = true) (hf : startsWith (trimStart l) fencePat = false) :
    processLine s st l =
      some { st with
        buf := (if 0 < byteLen st.buf then st.buf ++ ['\n'] else st.buf) ++ l } := by
  simp only [processLine, hm, hf, if_true, if_false, Bool.false_eq_true]

theorem processLines_in_mode (s : List Char) (ls : List (List Char)) (st : PState)
    (hm : st.mode = true)
    (hf : ∀ l ∈ ls, startsWith (trimStart l) fencePat = false) :
    ∃ st2, processLines s st ls = some st2 ∧ st2.res = st.res ∧ st2.mode = true := by
  induction ls generalizing st with
  | nil => exact ⟨st, rfl, rfl, hm⟩
  | cons l ls ih =>
    simp only [processLines,
      processLine_in_mode s l st hm (hf l (by simp))]
    obtain ⟨st2, h1, h2, h3⟩ :=
      ih { st with
            buf := (if 0 < byteLen st.buf then st.buf ++ ['\n'] else st.buf) ++ l }
        hm (fun x hx => hf x (by simp [hx]))
    exact ⟨st2, h1, h2, h3⟩

theorem processLines_append (s : List Char) (A B : List (List Char)) (st : PState) :
    processLines s st (A ++ B) =
      (processLines s st A).bind (fun st2 => processLines s st2 B) := by
  induction A generalizing st with
  | nil => simp [processLines]
  | cons l ls ih =>
    simp only [List.cons_append, processLines]
    cases processLine s st l with
    | none => rfl
    | some st2 => exact ih st2

theorem processLine_fence_open (s l : List Char) (st stB : PState)
    (hm : st.mode = false) (hf : startsWith (trimStart l) fencePat = true)
    (h : processLine s st l = some stB) :
    stB.res = st.res ∧ stB.mode = true := by
  obtain ⟨t, ht⟩ := (startsWith_iff _ _).mp hf
  obtain ⟨f1, f2, f3, f4, f5, f6, f7⟩ := fence_branch_select t
  simp only [processLine, hm, ht, f1, f2, f3, f4, f5, f6, f7, if_true, if_false,
    Bool.false_eq_true] at h
  split at h
  · split at h
    · exact Option.noConfusion h
    · obtain rfl := Option.some.inj h
      exact ⟨rfl, rfl⟩
  · obtain rfl := Option.some.inj h
    exact ⟨rfl, rfl⟩

/-- C7 (confirmed): when the lines of the input split as `A ++ fl :: B`
where processing `A` leaves the parser out of preformatted mode, `fl` is an
opening fence line (and its processing does not panic), and no line of `B`
is a fence line, the resulting document consists exactly of the entries
accumulated over `A`: the content after the unmatched opening fence is
buffered but never emitted. -/
theorem c7_unclosed_fence (s : List Char) (A : List (List Char))
    (fl : List Char) (B : List (List Char)) (stA stB : PState)
    (hlines : rustLines s = A ++ fl :: B)
    (hA : processLines s initPS A = some stA)
    (hmode : stA.mode = false)
    (hfl : startsWith (trimStart fl) fencePat = true)
    (hopen : processLine s stA fl = some stB)
    (hB : ∀ l ∈ B, startsWith (trimStart l) fencePat = false) :
    Gemtext.from_str s = some ⟨stA.res⟩ := by
  unfold Gemtext.from_str
  rw [hlines, processLines_append, hA]
  simp only [Option.some_bind, processLines, hopen]
  obtain ⟨hres, hmode2⟩ := processLine_fence_open s fl stA stB hmode hfl hopen
  obtain ⟨st2, h1, h2, h3⟩ := processLines_in_mode s B stB hmode2 hB
  rw [h1]
  simp [h2, hres]

/-- Witness instantiating `c7_unclosed_fence` on `"hello\n```\nsecret"`:
the document is just the text line, the buffered `"secret"` is dropped. -/
theorem c7_unclosed_fence_witness :
    Gemtext.from_str
        ('h' :: 'e' :: 'l' :: 'l' :: 'o' :: '\n' ::
          fenceChar :: fenceChar :: fenceChar :: '\n' ::
          's' :: 'e' :: 'c' :: 'r' :: 'e' :: 't' :: []) =
      some ⟨[.text ['h', 'e', 'l', 'l', 'o']]⟩ :=
  c7_unclosed_fence _
    [['h', 'e', 'l', 'l', 'o']] fencePat [['s', 'e', 'c', 'r', 'e', 't']]
    ⟨[.text ['h', 'e', 'l', 'l', 'o']], false, [], []⟩
    ⟨[.text ['h', 'e', 'l', 'l', 'o']], true, [], []⟩
    (by decide) (by decide) rfl (by decide) (by decide) (by decide)

/-! ## Claim C8 -/

theorem pushListItem_nonempty (res : List GemtextEntry) (entry : List Char)
    (inv : ∀ xs, GemtextEntry.list xs ∈ res → xs ≠ []) :
    ∀ xs, GemtextEntry.list xs ∈ pushListItem res entry → xs ≠ [] := by
  intro xs hxs
  unfold pushListItem at hxs
  split at hxs
  · rename_i vec hlast
    rcases List.mem_append.mp hxs with hin | hnew
    · exact inv xs (List.mem_of_mem_dropLast hin)
    · simp only [List.mem_singleton, GemtextEntry.list.injEq] at hnew
      simp [hnew]
  · rcases List.mem_append.mp hxs with hin | hnew
    · exact inv xs hin
    · simp only [List.mem_singleton, GemtextEntry.list.injEq] at hnew
      simp [hnew]

theorem processLine_lists_nonempty (s l : List Char) (st st2 : PState)
    (h : processLine s st l = some st2)
    (inv : ∀ xs, GemtextEntry.list xs ∈ st.res → xs ≠ []) :
    ∀ xs, GemtextEntry.list xs ∈ st2.res → xs ≠ [] := by
  simp only [processLine] at h
  repeat' split at h
  all_goals
    first
      | exact Option.noConfusion h
      | (obtain rfl := Option.some.inj h
         intro xs hxs
         first
           | exact inv xs hxs
           | exact pushListItem_nonempty st.res _ inv xs hxs
           | (rcases List.mem_append.mp hxs with hin | hnew
              · exact inv xs hin
              · simp at hnew))

theorem processLines_lists_nonempty (s : List Char) (ls : List (List Char))
    (st st2 : PState) (h : processLines s st ls = some st2)
    (inv : ∀ xs, GemtextEntry.list xs ∈ st.res → xs ≠ []) :
    ∀ xs, GemtextEntry.list xs ∈ st2.res → xs ≠ [] := by
  induction ls generalizing st with
  | nil =>
    obtain rfl := Option.some.inj h
    exact inv
  | cons l ls ih =>
    simp only [processLines] at h
    rcases hl : processLine s st l with _ | stm
    · rw [hl] at h; exact Option.noConfusion h
    · rw [hl] at h
      exact ih stm h (processLine_lists_nonempty s l st stm hl inv)

theorem byteLen_pos (x : List Char) (h : x ≠ []) : 0 < byteLen x := by
  cases x with
  | nil => exact absurd rfl h
  | cons c cs => have := utf8Len_pos c; simp; omega

theorem list_branch_select (x : List Char) :
    trimStart ('*' :: ' ' :: x) = '*' :: ' ' :: x ∧
    startsWith ('*' :: ' ' :: x) ['=', '>'] = false ∧
    startsWith ('*' :: ' ' :: x) ['#', '#', '#', ' '] = false ∧
    startsWith ('*' :: ' ' :: x) ['#', '#', ' '] = false ∧
    startsWith ('*' :: ' ' :: x) ['#', ' '] = false ∧
    startsWith ('*' :: ' ' :: x) ['*', ' '] = true := by
  refine ⟨?_, ?_, ?_, ?_, ?_, ?_⟩ <;> simp [trimStart, rustIsWhitespace, startsWith]

theorem processLine_list (s x : List Char) (st : PState) (hm : st.mode = false) :
    processLine s st ('*' :: ' ' :: x) =
      some { st with res := pushListItem st.res x } := by
  obtain ⟨t1, b1, b2, b3, b4, b5⟩ := list_branch_select x
  simp only [processLine, hm, t1, b1, b2, b3, b4, b5, if_true, if_false,
    Bool.false_eq_true]
  rcases hx : x with _ | ⟨c, cs⟩
  · rfl
  · rw [if_pos]
    · rfl
    · have := utf8Len_pos c
      have := byteLen_pos (c :: cs) (by simp)
      simp only [byteLen_cons]
      have h42 : utf8Len '*' = 1 := rfl
      have hsp : utf8Len ' ' = 1 := rfl
      omega

theorem text_branch_select_t :
    trimStart ['t'] = ['t'] ∧
    startsWith ['t'] ['=', '>'] = false ∧
    startsWith ['t'] ['#', '#', '#', ' '] = false ∧
    startsWith ['t'] ['#', '#', ' '] = false ∧
    startsWith ['t'] ['#', ' '] = false ∧
    startsWith ['t'] ['*', ' '] = false ∧
    startsWith ['t'] ['>'] = false ∧
    startsWith ['t'] fencePat = false := by
  decide

theorem processLine_text_t (s : List Char) (st : PState) (hm : st.mode = false) :
    processLine s st ['t'] =
      some { st with res := st.res ++ [.text ['t']] } := by
  obtain ⟨t1, b1, b2, b3, b4, b5, b6, b7⟩ := text_branch_select_t
  simp only [processLine, hm, t1, b1, b2, b3, b4, b5, b6, b7, if_true, if_false,
    Bool.false_eq_true]

theorem processLines_cons_some (s l : List Char) (st st2 : PState)
    (ls : List (List Char)) (h : processLine s st l = some st2) :
    processLines s st (l :: ls) = processLines s st2 ls := by
  simp only [processLines, h]

theorem rustLines_of_three (a b c : List Char)
    (ha : ∀ ch ∈ a, ch ≠ '\n' ∧ ch ≠ '\r')
    (hb : ∀ ch ∈ b, ch ≠ '\n' ∧ ch ≠ '\r')
    (hc : ∀ ch ∈ c, ch ≠ '\n' ∧ ch ≠ '\r') (hcne : c ≠ []) :
    rustLines (a ++ '\n' :: (b ++ '\n' :: c)) = [a, b, c] := by
  unfold rustLines
  rw [splitNl_append_nl _ _ (fun ch h => (ha ch h).1),
      splitNl_append_nl _ _ (fun ch h => (hb ch h).1),
      splitNl_of_no_nl _ (fun ch h => (hc ch h).1)]
  have hne : ¬ (([a, b, c] : List (List Char)).getLast? = some []) := by
    simpa using hcne
  show List.map stripCr
      (if ([a, b, c] : List (List Char)).getLast? = some [] then
        ([a, b, c] : List (List Char)).dropLast
      else [a, b, c]) = [a, b, c]
  rw [if_neg hne]
  simp [stripCr_of_no_cr a (fun ch h => (ha ch h).2),
    stripCr_of_no_cr b (fun ch h => (hb ch h).2),
    stripCr_of_no_cr c (fun ch h => (hc ch h).2)]

/-- C8 (confirmed): every `List` block in a parsed document is non-empty;
three consecutive list-item lines merge into one `List` block with the three
items in order; and a list line, a text line and another list line produce
two separate singleton `List` blocks. -/
theorem c8_list_blocks :
    (∀ (s : List Char) (g : Gemtext) (xs : List (List Char)),
      Gemtext.from_str s = some g → GemtextEntry.list xs ∈ g.data → xs ≠ []) ∧
    (∀ x y z : List Char,
      (∀ ch ∈ x, ch ≠ '\n' ∧ ch ≠ '\r') →
      (∀ ch ∈ y, ch ≠ '\n' ∧ ch ≠ '\r') →
      (∀ ch ∈ z, ch ≠ '\n' ∧ ch ≠ '\r') →
      Gemtext.from_str
          ('*' :: ' ' :: x ++ '\n' :: ('*' :: ' ' :: y ++ '\n' :: ('*' :: ' ' :: z))) =
        some ⟨[.list [x, y, z]]⟩) ∧
    (∀ x z : List Char,
      (∀ ch ∈ x, ch ≠ '\n' ∧ ch ≠ '\r') →
      (∀ ch ∈ z, ch ≠ '\n' ∧ ch ≠ '\r') →
      Gemtext.from_str
          ('*' :: ' ' :: x ++ '\n' :: ('t' :: '\n' :: ('*' :: ' ' :: z))) =
        some ⟨[.list [x], .text ['t'], .list [z]]⟩) := by
  refine ⟨?_, ?_, ?_⟩
  · intro s g xs h hmem
    unfold Gemtext.from_str at h
    rcases hp : processLines s initPS (rustLines s) with _ | st
    · rw [hp] at h; exact Option.noConfusion h
    · rw [hp] at h
      simp only [Option.map_some'] at h
      obtain rfl := Option.some.inj h
      exact processLines_lists_nonempty s _ initPS st hp
        (by intro xs hxs; exact absurd hxs (List.not_mem_nil _)) xs hmem
  · intro x y z hx hy hz
    have hcx : ∀ ch ∈ '*' :: ' ' :: x, ch ≠ '\n' ∧ ch ≠ '\r' := by
      intro ch hch
      simp only [List.mem_cons] at hch
      rcases hch with rfl | rfl | hch
      · decide
      · decide
      · exact hx ch hch
    have hcy : ∀ ch ∈ '*' :: ' ' :: y, ch ≠ '\n' ∧ ch ≠ '\r' := by
      intro ch hch
      simp only [List.mem_cons] at hch
      rcases hch with rfl | rfl | hch
      · decide
      · decide
      · exact hy ch hch
    have hcz : ∀ ch ∈ '*' :: ' ' :: z, ch ≠ '\n' ∧ ch ≠ '\r' := by
      intro ch hch
      simp only [List.mem_cons] at hch
      rcases hch with rfl | rfl | hch
      · decide
      · decide
      · exact hz ch hch
    unfold Gemtext.from_str
    rw [rustLines_of_three _ _ _ hcx hcy hcz (by simp)]
    rw [processLines_cons_some _ _ _ _ _ (processLine_list _ x initPS rfl)]
    rw [processLines_cons_some _ _ _ _ _ (processLine_list _ y _ rfl)]
    rw [processLines_cons_some _ _ _ _ _ (processLine_list _ z _ rfl)]
    rfl
  · intro x z hx hz
    have hcx : ∀ ch ∈ '*' :: ' ' :: x, ch ≠ '\n' ∧ ch ≠ '\r' := by
      intro ch hch
      simp only [List.mem_cons] at hch
      rcases hch with rfl | rfl | hch
      · decide
      · decide
      · exact hx ch hch
    have hcz : ∀ ch ∈ '*' :: ' ' :: z, ch ≠ '\n' ∧ ch ≠ '\r' := by
      intro ch hch
      simp only [List.mem_cons] at hch
      rcases hch with rfl | rfl | hch
      · decide
      · decide
      · exact hz ch hch
    unfold Gemtext.from_str
    rw [show ('*' :: ' ' :: x ++ '\n' :: ('t' :: '\n' :: ('*' :: ' ' :: z))) =
        ('*' :: ' ' :: x ++ '\n' :: (['t'] ++ '\n' :: ('*' :: ' ' :: z))) from rfl]
    rw [rustLines_of_three _ ['t'] _ hcx (by decide) hcz (by simp)]
    rw [processLines_cons_some _ _ _ _ _ (processLine_list _ x initPS rfl)]
    rw [processLines_cons_some _ _ _ _ _ (processLine_text_t _ _ rfl)]
    rw [processLines_cons_some _ _ _ _ _ (processLine_list _ z _ rfl)]
    rfl

/-- Witness instantiating all three parts of `c8_list_blocks` on concrete
single-character items. -/
theorem c8_list_blocks_witness :
    ([['a']] : List (List Char)) ≠ [] ∧
    Gemtext.from_str
        ('*' :: ' ' :: ['a'] ++ '\n' :: ('*' :: ' ' :: ['b'] ++ '\n' :: ('*' :: ' ' :: ['c']))) =
      some ⟨[.list [['a'], ['b'], ['c']]]⟩ ∧
    Gemtext.from_str
        ('*' :: ' ' :: ['a'] ++ '\n' :: ('t' :: '\n' :: ('*' :: ' ' :: ['c']))) =
      some ⟨[.list [['a']], .text ['t'], .list [['c']]]⟩ :=
  ⟨c8_list_blocks.1 ('*' :: ' ' :: 'a' :: []) ⟨[.list [['a']]]⟩ [['a']]
      (by decide) (by decide),
   c8_list_blocks.2.1 ['a'] ['b'] ['c'] (by decide) (by decide) (by decide),
   c8_list_blocks.2.2 ['a'] ['c'] (by decide) (by decide)⟩

/-! ## Claim C6 -/

/-- C6 (amended part): whenever the history index is in bounds, handling a
PermanentFailure/NotFound response clears the replay flag and rolls the
active Location (server name and request) back to the history entry at the
current index, leaving the history, the history index and the displayed
document untouched, clearing the fetch flag (no re-fetch), and syncing the
url bar to the restored request. -/
theorem c6_notFound_rollback (st : AppState) (msg : List Char)
    (e : List Char × List Char) (h : st.history[st.historyIndex]? = some e) :
    App.handleResponse st (.permanentFailure .notFound msg) =
      some { st with
        redir := false
        movingInHistory := false
        serverName := e.1
        requestData := e.2
        urlBarData := e.2 } := by
  simp only [App.handleResponse, h]

/-- C6 is false as stated (it claims the rollback also happens on the very
first navigation when history is empty): with an empty history the handler
indexes `history[0]` out of bounds and panics (modelled as `none`) instead
of rolling back. -/
theorem c6_counterexample :
    App.handleResponse
      { serverName := ['h'], requestData := ['r'], urlBarData := ['r'],
        gemtext := ⟨[]⟩, movingInHistory := false, history := [],
        historyIndex := 0, redir := true }
      (.permanentFailure .notFound []) = none := by
  decide

/-- Witness instantiating `c6_notFound_rollback` on a one-entry history. -/
theorem c6_notFound_rollback_witness :
    App.handleResponse
      { serverName := ['s'], requestData := ['q'], urlBarData := ['u'],
        gemtext := ⟨[]⟩, movingInHistory := true,
        history := [(['h'], ['r'])], historyIndex := 0, redir := true }
      (.permanentFailure .notFound ['m']) =
      some { serverName := ['h'], requestData := ['r'], urlBarData := ['r'],
             gemtext := ⟨[]⟩, movingInHistory := false,
             history := [(['h'], ['r'])], historyIndex := 0, redir := false } :=
  c6_notFound_rollback _ ['m'] (['h'], ['r']) (by decide)

/-! ## Claims C9 and C10 -/

theorem byteLen_eq_zero (t : List Char) (h : byteLen t = 0) : t = [] := by
  cases t with
  | nil => rfl
  | cons c cs => have := utf8Len_pos c; simp at h; omega

theorem trimEndMatches_slash (a b : List Char) (hb : ∀ c ∈ b, c ≠ '/') :
    trimEndMatches (fun c => c != '/') (a ++ '/' :: b) = a ++ ['/'] := by
  unfold trimEndMatches
  have hrev : (a ++ '/' :: b).reverse = b.reverse ++ '/' :: a.reverse := by
    simp
  rw [hrev]
  rw [dropWhile_append_of_all _ (by
    intro x hx
    have : x ≠ '/' := hb x (by simpa using hx)
    simpa using this)]
  have hstop : List.dropWhile (fun c => c != '/') ('/' :: a.reverse) =
      '/' :: a.reverse := by
    simp [List.dropWhile]
  rw [hstop]
  simp

/-- Host of the resolution scenario, `"example.org"`. -/
def exHost : List Char := ['e', 'x', 'a', 'm', 'p', 'l', 'e', '.', 'o', 'r', 'g']

/-- C9 (confirmed): for a target with no scheme separator, not starting with
a slash and ending in `.gmi`, resolution succeeds with the host unchanged;
the new request appends the target to the current request unmodified when
the latter does not end in `.gmi`, and to the current request truncated back
to (and including) its last slash when it does.  The spec's concrete
scenario is included. -/
theorem c9_gmi_target :
    (∀ sn req target : List Char,
      containsSub target schemeSep = false →
      startsWith target ['/'] = false →
      endsWith target gmiSuffix = true →
      ((endsWith req gmiSuffix = false →
          redirect sn req target = (true, sn, req ++ target)) ∧
       (∀ a b : List Char, req = a ++ '/' :: b → (∀ c ∈ b, c ≠ '/') →
          endsWith req gmiSuffix = true →
          redirect sn req target = (true, sn, (a ++ ['/']) ++ target)))) ∧
    redirect exHost
        (geminiScheme ++ exHost ++ ['/', 'a', '/', 'b', '.', 'g', 'm', 'i'])
        ['c', '.', 'g', 'm', 'i'] =
      (true, exHost,
        geminiScheme ++ exHost ++ ['/', 'a', '/', 'c', '.', 'g', 'm', 'i']) := by
  constructor
  · intro sn req target hc hs hg
    constructor
    · intro hreq
      simp only [redirect, hc, hs, hg, hreq, if_true, if_false,
        Bool.false_eq_true]
    · intro a b hab hb hreq
      simp only [redirect, hc, hs, hg, hreq, if_true, if_false,
        Bool.false_eq_true]
      subst hab
      rw [trimEndMatches_slash a b hb]
  · decide

/-- C10 (confirmed): resolution is rejected exactly when the target contains
the scheme separator and either does not start with the supported
`gemini://` prefix or is exactly that prefix with nothing after it; every
target without a scheme separator is accepted. -/
theorem c10_reject_iff (sn req url : List Char) :
    (redirect sn req url).1 = false ↔
      (containsSub url schemeSep = true ∧
       (startsWith url geminiScheme = false ∨ url = geminiScheme)) := by
  unfold redirect
  by_cases hc : containsSub url schemeSep
  · by_cases hs : startsWith url geminiScheme
    · by_cases hl : byteLen url ≤ 9
      · obtain ⟨t, rfl⟩ := (startsWith_iff _ _).mp hs
        have ht : t = [] := by
          apply byteLen_eq_zero
          rw [byteLen_append] at hl
          have h9 : byteLen geminiScheme = 9 := by decide
          omega
        subst ht
        simp only [List.append_nil] at hc hs hl ⊢
        simp [hc, hs, hl]
      · have hne : ¬ (url = geminiScheme) := by
          intro hurl
          subst hurl
          exact hl (by decide)
        simp [hc, hs, hl, hne]
    · simp [hc, hs]
  · by_cases h2 : startsWith url ['/']
    · simp [hc, h2]
    · by_cases h3 : endsWith url gmiSuffix
      · simp [hc, h2, h3]
      · simp [hc, h2, h3]

/-! ## Claim C3 -/

theorem linkLoop_nonws (l1 cs : List Char) (bc ws wc : Nat)
    (url label : List Char) (c : Char) (hc : rustIsWhitespace c = false) :
    linkLoop l1 (c :: cs) bc ws wc url label =
      linkLoop l1 cs (bc + utf8Len c) ws wc url label := by
  simp [linkLoop, hc]

theorem linkLoop_skip (l1 seg cs : List Char) (bc ws wc : Nat)
    (url label : List Char) (h : ∀ c ∈ seg, rustIsWhitespace c = false) :
    linkLoop l1 (seg ++ cs) bc ws wc url label =
      linkLoop l1 cs (bc + byteLen seg) ws wc url label := by
  induction seg generalizing bc with
  | nil => simp
  | cons c cs2 ih =>
    rw [List.cons_append,
      linkLoop_nonws l1 (cs2 ++ cs) bc ws wc url label c (h c (by simp)),
      ih (bc + utf8Len c) (fun x hx => h x (by simp [hx]))]
    have harith : bc + utf8Len c + byteLen cs2 = bc + byteLen (c :: cs2) := by
      simp only [byteLen_cons]; omega
    rw [harith]

theorem linkLoop_end (l1 seg : List Char) (bc ws wc : Nat)
    (url label : List Char) (h : ∀ c ∈ seg, rustIsWhitespace c = false) :
    linkLoop l1 seg bc ws wc url label = some (url, label, wc, ws) := by
  induction seg generalizing bc with
  | nil => rfl
  | cons c cs2 ih =>
    rw [linkLoop_nonws l1 cs2 bc ws wc url label c (h c (by simp))]
    exact ih (bc + utf8Len c) (fun x hx => h x (by simp [hx]))

theorem linkLoop_ws0 (l1 cs : List Char) (bc ws : Nat) (url label : List Char)
    (c : Char) (hc : rustIsWhitespace c = true) :
    linkLoop l1 (c :: cs) bc ws 0 url label =
      linkLoop l1 cs (bc + utf8Len c) (bc + utf8Len c) 1 url label := by
  simp [linkLoop, hc]

theorem linkLoop_ws1 (l1 cs : List Char) (bc ws : Nat) (url label u : List Char)
    (c : Char) (hc : rustIsWhitespace c = true)
    (hslice : byteSliceOpt l1 ws bc = some u) :
    linkLoop l1 (c :: cs) bc ws 1 url label =
      linkLoop l1 cs (bc + utf8Len c) (bc + utf8Len c) 2 u label := by
  simp [linkLoop, hc, hslice]

theorem linkLoop_ws2 (l1 cs : List Char) (bc ws : Nat) (url label lab : List Char)
    (c : Char) (hc : rustIsWhitespace c = true)
    (hdrop : byteDropOpt l1 ws = some lab) :
    linkLoop l1 (c :: cs) bc ws 2 url label = some (url, lab, 2, ws) := by
  simp [linkLoop, hc, hdrop]

theorem noWs_clean (u : List Char) (h : ∀ c ∈ u, rustIsWhitespace c = false) :
    ∀ c ∈ u, c ≠ '\n' ∧ c ≠ '\r' := by
  intro c hc
  constructor
  · rintro rfl
    exact absurd (h _ hc) (by decide)
  · rintro rfl
    exact absurd (h _ hc) (by decide)

theorem linkOf_bare_url (u : List Char) (hne : u ≠ [])
    (hu : ∀ c ∈ u, rustIsWhitespace c = false) :
    linkOf ('=' :: '>' :: ' ' :: u) = some (u, []) := by
  have h1 : linkLoop ('=' :: '>' :: ' ' :: u) ('=' :: '>' :: ' ' :: u) 0 0 0 [] [] =
      some ([], [], 1, 3) := by
    calc linkLoop ('=' :: '>' :: ' ' :: u) ('=' :: '>' :: ' ' :: u) 0 0 0 [] []
        = linkLoop ('=' :: '>' :: ' ' :: u) (' ' :: u) 2 0 0 [] [] :=
          linkLoop_skip _ ['=', '>'] (' ' :: u) 0 0 0 [] [] (by decide)
      _ = linkLoop ('=' :: '>' :: ' ' :: u) u 3 3 1 [] [] :=
          linkLoop_ws0 _ u 2 0 [] [] ' ' (by decide)
      _ = some ([], [], 1, 3) := linkLoop_end _ u 3 3 1 [] [] hu
  have hdrop : byteDropOpt ('=' :: '>' :: ' ' :: u) 3 = some u :=
    byteDropOpt_append ['=', '>', ' '] u
  have hlen : 3 < byteLen ('=' :: '>' :: ' ' :: u) := by
    have := byteLen_pos u hne
    simp only [byteLen_cons]
    have h1 : utf8Len '=' = 1 := rfl
    have h2 : utf8Len '>' = 1 := rfl
    have h3 : utf8Len ' ' = 1 := rfl
    omega
  simp only [linkOf, h1]
  rw [if_pos ⟨trivial, trivial, hlen⟩, hdrop]

theorem linkOf_url_label (u lab : List Char) (hne : u ≠ [])
    (hu : ∀ c ∈ u, rustIsWhitespace c = false)
    (hlab : ∀ c ∈ lab, rustIsWhitespace c = false) :
    linkOf ('=' :: '>' :: ' ' :: (u ++ ' ' :: lab)) = some (u, []) := by
  have hslice : byteSliceOpt ('=' :: '>' :: ' ' :: (u ++ ' ' :: lab)) 3
      (3 + byteLen u) = some u :=
    byteSliceOpt_append ['=', '>', ' '] u (' ' :: lab)
  have h1 : linkLoop ('=' :: '>' :: ' ' :: (u ++ ' ' :: lab))
      ('=' :: '>' :: ' ' :: (u ++ ' ' :: lab)) 0 0 0 [] [] =
      some (u, [], 2, 3 + byteLen u + 1) := by
    calc linkLoop ('=' :: '>' :: ' ' :: (u ++ ' ' :: lab))
          ('=' :: '>' :: ' ' :: (u ++ ' ' :: lab)) 0 0 0 [] []
        = linkLoop ('=' :: '>' :: ' ' :: (u ++ ' ' :: lab))
            (' ' :: (u ++ ' ' :: lab)) 2 0 0 [] [] :=
          linkLoop_skip _ ['=', '>'] _ 0 0 0 [] [] (by decide)
      _ = linkLoop ('=' :: '>' :: ' ' :: (u ++ ' ' :: lab))
            (u ++ ' ' :: lab) 3 3 1 [] [] :=
          linkLoop_ws0 _ _ 2 0 [] [] ' ' (by decide)
      _ = linkLoop ('=' :: '>' :: ' ' :: (u ++ ' ' :: lab))
            (' ' :: lab) (3 + byteLen u) 3 1 [] [] :=
          linkLoop_skip _ u (' ' :: lab) 3 3 1 [] [] hu
      _ = linkLoop ('=' :: '>' :: ' ' :: (u ++ ' ' :: lab))
            lab (3 + byteLen u + 1) (3 + byteLen u + 1) 2 u [] :=
          linkLoop_ws1 _ lab (3 + byteLen u) 3 [] [] u ' ' (by decide) hslice
      _ = some (u, [], 2, 3 + byteLen u + 1) :=
          linkLoop_end _ lab (3 + byteLen u + 1) (3 + byteLen u + 1) 2 u [] hlab
  simp only [linkOf, h1]
  rw [if_neg (fun hcon => hne hcon.1)]

theorem linkOf_url_two_label_words (u lab1 lab2 : List Char) (hne : u ≠ [])
    (hu : ∀ c ∈ u, rustIsWhitespace c = false)
    (hlab1 : ∀ c ∈ lab1, rustIsWhitespace c = false) :
    linkOf ('=' :: '>' :: ' ' :: (u ++ ' ' :: (lab1 ++ ' ' :: lab2))) =
      some (u, lab1 ++ ' ' :: lab2) := by
  have hslice : byteSliceOpt ('=' :: '>' :: ' ' :: (u ++ ' ' :: (lab1 ++ ' ' :: lab2))) 3
      (3 + byteLen u) = some u :=
    byteSliceOpt_append ['=', '>', ' '] u (' ' :: (lab1 ++ ' ' :: lab2))
  have hl1eq : ('=' :: '>' :: ' ' :: (u ++ ' ' :: (lab1 ++ ' ' :: lab2))) =
      ('=' :: '>' :: ' ' :: (u ++ [' '])) ++ (lab1 ++ ' ' :: lab2) := by
    simp
  have hdrop : byteDropOpt ('=' :: '>' :: ' ' :: (u ++ ' ' :: (lab1 ++ ' ' :: lab2)))
      (3 + byteLen u + 1) = some (lab1 ++ ' ' :: lab2) := by
    rw [hl1eq]
    have hblen : 3 + byteLen u + 1 = byteLen ('=' :: '>' :: ' ' :: (u ++ [' '])) := by
      simp only [byteLen_cons, byteLen_append]
      have h1 : utf8Len '=' = 1 := rfl
      have h2 : utf8Len '>' = 1 := rfl
      have h3 : utf8Len ' ' = 1 := rfl
      simp only [h1, h2, h3, byteLen_nil]
      omega
    rw [hblen]
    exact byteDropOpt_append _ _
  have h1 : linkLoop ('=' :: '>' :: ' ' :: (u ++ ' ' :: (lab1 ++ ' ' :: lab2)))
      ('=' :: '>' :: ' ' :: (u ++ ' ' :: (lab1 ++ ' ' :: lab2))) 0 0 0 [] [] =
      some (u, lab1 ++ ' ' :: lab2, 2, 3 + byteLen u + 1) := by
    calc linkLoop ('=' :: '>' :: ' ' :: (u ++ ' ' :: (lab1 ++ ' ' :: lab2)))
          ('=' :: '>' :: ' ' :: (u ++ ' ' :: (lab1 ++ ' ' :: lab2))) 0 0 0 [] []
        = linkLoop ('=' :: '>' :: ' ' :: (u ++ ' ' :: (lab1 ++ ' ' :: lab2)))
            (' ' :: (u ++ ' ' :: (lab1 ++ ' ' :: lab2))) 2 0 0 [] [] :=
          linkLoop_skip _ ['=', '>'] _ 0 0 0 [] [] (by decide)
      _ = linkLoop ('=' :: '>' :: ' ' :: (u ++ ' ' :: (lab1 ++ ' ' :: lab2)))
            (u ++ ' ' :: (lab1 ++ ' ' :: lab2)) 3 3 1 [] [] :=
          linkLoop_ws0 _ _ 2 0 [] [] ' ' (by decide)
      _ = linkLoop ('=' :: '>' :: ' ' :: (u ++ ' ' :: (lab1 ++ ' ' :: lab2)))
            (' ' :: (lab1 ++ ' ' :: lab2)) (3 + byteLen u) 3 1 [] [] :=
          linkLoop_skip _ u _ 3 3 1 [] [] hu
      _ = linkLoop ('=' :: '>' :: ' ' :: (u ++ ' ' :: (lab1 ++ ' ' :: lab2)))
            (lab1 ++ ' ' :: lab2) (3 + byteLen u + 1) (3 + byteLen u + 1) 2 u [] :=
          linkLoop_ws1 _ _ (3 + byteLen u) 3 [] [] u ' ' (by decide) hslice
      _ = linkLoop ('=' :: '>' :: ' ' :: (u ++ ' ' :: (lab1 ++ ' ' :: lab2)))
            (' ' :: lab2) (3 + byteLen u + 1 + byteLen lab1) (3 + byteLen u + 1) 2
            u [] :=
          linkLoop_skip _ lab1 (' ' :: lab2) (3 + byteLen u + 1) (3 + byteLen u + 1)
            2 u [] hlab1
      _ = some (u, lab1 ++ ' ' :: lab2, 2, 3 + byteLen u + 1) :=
          linkLoop_ws2 _ lab2 (3 + byteLen u + 1 + byteLen lab1) (3 + byteLen u + 1)
            u [] (lab1 ++ ' ' :: lab2) ' ' (by decide) hdrop
  simp only [linkOf, h1]
  rw [if_neg (fun hcon => hne hcon.1)]

theorem linkOf_double_space (u : List Char)
    (hu : ∀ c ∈ u, rustIsWhitespace c = false) :
    linkOf ('=' :: '>' :: ' ' :: ' ' :: u) = some ([], []) := by
  have hslice : byteSliceOpt ('=' :: '>' :: ' ' :: ' ' :: u) 3 3 = some [] := by
    have hs2 : byteDropOpt ('=' :: '>' :: ' ' :: ' ' :: u) 3 = some (' ' :: u) :=
      byteDropOpt_append ['=', '>', ' '] (' ' :: u)
    unfold byteSliceOpt
    rw [hs2]
    rfl
  have h1 : linkLoop ('=' :: '>' :: ' ' :: ' ' :: u)
      ('=' :: '>' :: ' ' :: ' ' :: u) 0 0 0 [] [] = some ([], [], 2, 4) := by
    calc linkLoop ('=' :: '>' :: ' ' :: ' ' :: u)
          ('=' :: '>' :: ' ' :: ' ' :: u) 0 0 0 [] []
        = linkLoop ('=' :: '>' :: ' ' :: ' ' :: u) (' ' :: ' ' :: u) 2 0 0 [] [] :=
          linkLoop_skip _ ['=', '>'] _ 0 0 0 [] [] (by decide)
      _ = linkLoop ('=' :: '>' :: ' ' :: ' ' :: u) (' ' :: u) 3 3 1 [] [] :=
          linkLoop_ws0 _ _ 2 0 [] [] ' ' (by decide)
      _ = linkLoop ('=' :: '>' :: ' ' :: ' ' :: u) u 4 4 2 [] [] :=
          linkLoop_ws1 _ u 3 3 [] [] [] ' ' (by decide) hslice
      _ = some ([], [], 2, 4) := linkLoop_end _ u 4 4 2 [] [] hu
  simp only [linkOf, h1]
  rw [if_neg (by simp)]

theorem trimStart_eq (c : Char) (rest : List Char)
    (h : rustIsWhitespace c = false) : trimStart (c :: rest) = c :: rest := by
  simp [trimStart, List.dropWhile, h]

theorem processLine_link (s l : List Char) (st : PState) (hm : st.mode = false)
    (hsw : startsWith (trimStart l) ['=', '>'] = true) (url label : List Char)
    (hlink : linkOf (trimStart l) = some (url, label)) :
    processLine s st l = some { st with res := st.res ++ [.link url label] } := by
  simp only [processLine, hm, hsw, hlink, if_true, if_false, Bool.false_eq_true]

/-- C3 (corrected): the tokenizer splits on single whitespace characters of
the trimmed line (the `=>` prefix included in the scan), not on runs.  The
URL is the text strictly between the first and second whitespace characters
(or, when the line has exactly one whitespace character, everything after
it, when non-empty); the label is everything after the second whitespace
character but it is only captured when a third whitespace character occurs —
a single-word label is silently dropped to the empty string; and two
adjacent whitespace characters right after the prefix give an empty URL even
though non-whitespace text follows. -/
theorem c3_link_tokenization :
    (∀ u : List Char, u ≠ [] → (∀ c ∈ u, rustIsWhitespace c = false) →
      Gemtext.from_str ('=' :: '>' :: ' ' :: u) = some ⟨[.link u []]⟩) ∧
    (∀ u lab : List Char, u ≠ [] →
      (∀ c ∈ u, rustIsWhitespace c = false) →
      (∀ c ∈ lab, rustIsWhitespace c = false) →
      Gemtext.from_str ('=' :: '>' :: ' ' :: (u ++ ' ' :: lab)) =
        some ⟨[.link u []]⟩) ∧
    (∀ u lab1 lab2 : List Char, u ≠ [] →
      (∀ c ∈ u, rustIsWhitespace c = false) →
      (∀ c ∈ lab1, rustIsWhitespace c = false) →
      (∀ c ∈ lab2, rustIsWhitespace c = false) →
      Gemtext.from_str ('=' :: '>' :: ' ' :: (u ++ ' ' :: (lab1 ++ ' ' :: lab2))) =
        some ⟨[.link u (lab1 ++ ' ' :: lab2)]⟩) ∧
    (∀ u : List Char, (∀ c ∈ u, rustIsWhitespace c = false) →
      Gemtext.from_str ('=' :: '>' :: ' ' :: ' ' :: u) = some ⟨[.link [] []]⟩) := by
  refine ⟨?_, ?_, ?_, ?_⟩
  · intro u hne hu
    have hclean : ∀ ch ∈ ('=' :: '>' :: ' ' :: u), ch ≠ '\n' ∧ ch ≠ '\r' := by
      intro ch hch
      simp only [List.mem_cons] at hch
      rcases hch with rfl | rfl | rfl | hch
      · decide
      · decide
      · decide
      · exact noWs_clean u hu ch hch
    have htrim : trimStart ('=' :: '>' :: ' ' :: u) = '=' :: '>' :: ' ' :: u :=
      trimStart_eq '=' _ (by decide)
    unfold Gemtext.from_str
    rw [rustLines_single _ (by simp) hclean]
    rw [processLines_cons_some _ _ _ _ _
      (processLine_link _ _ initPS rfl (by rw [htrim]; rfl) u []
        (by rw [htrim]; exact linkOf_bare_url u hne hu))]
    rfl
  · intro u lab hne hu hlab
    have hclean : ∀ ch ∈ ('=' :: '>' :: ' ' :: (u ++ ' ' :: lab)),
        ch ≠ '\n' ∧ ch ≠ '\r' := by
      intro ch hch
      simp only [List.mem_cons, List.mem_append] at hch
      rcases hch with rfl | rfl | rfl | hch | rfl | hch
      · decide
      · decide
      · decide
      · exact noWs_clean u hu ch hch
      · decide
      · exact noWs_clean lab hlab ch hch
    have htrim : trimStart ('=' :: '>' :: ' ' :: (u ++ ' ' :: lab)) =
        '=' :: '>' :: ' ' :: (u ++ ' ' :: lab) :=
      trimStart_eq '=' _ (by decide)
    unfold Gemtext.from_str
    rw [rustLines_single _ (by simp) hclean]
    rw [processLines_cons_some _ _ _ _ _
      (processLine_link _ _ initPS rfl (by rw [htrim]; rfl) u []
        (by rw [htrim]; exact linkOf_url_label u lab hne hu hlab))]
    rfl
  · intro u lab1 lab2 hne hu hlab1 hlab2
    have hclean : ∀ ch ∈ ('=' :: '>' :: ' ' :: (u ++ ' ' :: (lab1 ++ ' ' :: lab2))),
        ch ≠ '\n' ∧ ch ≠ '\r' := by
      intro ch hch
      simp only [List.mem_cons, List.mem_append] at hch
      rcases hch with rfl | rfl | rfl | hch | rfl | hch | rfl | hch
      · decide
      · decide
      · decide
      · exact noWs_clean u hu ch hch
      · decide
      · exact noWs_clean lab1 hlab1 ch hch
      · decide
      · exact noWs_clean lab2 hlab2 ch hch
    have htrim : trimStart ('=' :: '>' :: ' ' :: (u ++ ' ' :: (lab1 ++ ' ' :: lab2))) =
        '=' :: '>' :: ' ' :: (u ++ ' ' :: (lab1 ++ ' ' :: lab2)) :=
      trimStart_eq '=' _ (by decide)
    unfold Gemtext.from_str
    rw [rustLines_single _ (by simp) hclean]
    rw [processLines_cons_some _ _ _ _ _
      (processLine_link _ _ initPS rfl (by rw [htrim]; rfl) u (lab1 ++ ' ' :: lab2)
        (by rw [htrim]; exact linkOf_url_two_label_words u lab1 lab2 hne hu hlab1))]
    rfl
  · intro u hu
    have hclean : ∀ ch ∈ ('=' :: '>' :: ' ' :: ' ' :: u), ch ≠ '\n' ∧ ch ≠ '\r' := by
      intro ch hch
      simp only [List.mem_cons] at hch
      rcases hch with rfl | rfl | rfl | rfl | hch
      · decide
      · decide
      · decide
      · decide
      · exact noWs_clean u hu ch hch
    have htrim : trimStart ('=' :: '>' :: ' ' :: ' ' :: u) =
        '=' :: '>' :: ' ' :: ' ' :: u :=
      trimStart_eq '=' _ (by decide)
    unfold Gemtext.from_str
    rw [rustLines_single _ (by simp) hclean]
    rw [processLines_cons_some _ _ _ _ _
      (processLine_link _ _ initPS rfl (by rw [htrim]; rfl) [] []
        (by rw [htrim]; exact linkOf_double_space u hu))]
    rfl

/-- C3 is false as stated: on the link line `"=> url label"` the code
produces the URL `"url"` but an EMPTY label — the single-word label
`"label"` is dropped, because the label is only captured when a further
whitespace character is encountered after it starts. -/
theorem c3_counterexample :
    Gemtext.from_str
        ('=' :: '>' :: ' ' :: 'u' :: 'r' :: 'l' :: ' ' ::
          'l' :: 'a' :: 'b' :: 'e' :: 'l' :: []) =
      some ⟨[.link ['u', 'r', 'l'] []]⟩ ∧
    ([] : List Char) ≠ ['l', 'a', 'b', 'e', 'l'] := by
  constructor
  · decide
  · decide

/-- Witness instantiating the four parts of `c3_link_tokenization`. -/
theorem c3_link_tokenization_witness :
    Gemtext.from_str ('=' :: '>' :: ' ' :: ['u']) = some ⟨[.link ['u'] []]⟩ ∧
    Gemtext.from_str ('=' :: '>' :: ' ' :: (['a'] ++ ' ' :: ['b'])) =
      some ⟨[.link ['a'] []]⟩ ∧
    Gemtext.from_str ('=' :: '>' :: ' ' :: (['a'] ++ ' ' :: (['b'] ++ ' ' :: ['c']))) =
      some ⟨[.link ['a'] (['b'] ++ ' ' :: ['c'])]⟩ ∧
    Gemtext.from_str ('=' :: '>' :: ' ' :: ' ' :: ['x']) = some ⟨[.link [] []]⟩ :=
  ⟨c3_link_tokenization.1 ['u'] (by decide) (by decide),
   c3_link_tokenization.2.1 ['a'] ['b'] (by decide) (by decide) (by decide),
   c3_link_tokenization.2.2.1 ['a'] ['b'] ['c'] (by decide) (by decide)
     (by decide) (by decide),
   c3_link_tokenization.2.2.2 ['x'] (by decide)⟩

/-- Witness instantiating `c9_gmi_target` on both sub-cases: a current
request ending in `.gmi` (truncated back to its last slash) and one that
does not (used unmodified). -/
theorem c9_gmi_target_witness :
    redirect ['h'] ['g', '/', 'b', '.', 'g', 'm', 'i'] ['c', '.', 'g', 'm', 'i'] =
      (true, ['h'], (['g'] ++ ['/']) ++ ['c', '.', 'g', 'm', 'i']) ∧
    redirect ['h'] ['r'] ['c', '.', 'g', 'm', 'i'] =
      (true, ['h'], ['r'] ++ ['c', '.', 'g', 'm', 'i']) :=
  ⟨(c9_gmi_target.1 ['h'] ['g', '/', 'b', '.', 'g', 'm', 'i']
      ['c', '.', 'g', 'm', 'i'] (by decide) (by decide) (by decide)).2
      ['g'] ['b', '.', 'g', 'm', 'i'] rfl (by decide) (by decide),
   (c9_gmi_target.1 ['h'] ['r'] ['c', '.', 'g', 'm', 'i'] (by decide)
      (by decide) (by decide)).1 (by decide)⟩
